import Mathlib

/-!
toot_search: verification of the archive store, sync engine, renderer and
display code.

This file gives a shallow embedding, in Lean, of the pieces of the
`toot_search` repository that the specification talks about:

* `src/database.py` — the SQLite-backed archive store (`Database.max_id`,
  `Database.get`, `Database.insert`, `Database.items`);
* `src/render.py` — the HTML-fragment renderer (`BasicHTML`), together with a
  model of the library collaborator `textwrap.wrap` it delegates to;
* `src/status.py` — the display composition (`Status.__str__`);
* the sync-engine / search orchestration.  The orchestration that wires the
  archive store to the remote client and the index is not present in the
  source tree (`src/toot_search.py` is an earlier variant that writes fetched
  posts straight to the index and never touches `database.py`; nothing in the
  tree imports `database.py` or `status.py`, and `status.py` calls a function
  `render.compress` that `src/render.py` does not define).  Those missing
  parts are modelled from the specification, and each such definition is
  marked accordingly in its doc comment.

Machine strings are embedded as `List Char` in the renderer (where the claims
are about character counts) and as `String` in the display code; identifiers
are embedded as `Nat` (the SQLite column is `INTEGER NOT NULL PRIMARY KEY`,
and the numeric string ids the code passes are coerced by SQLite's type
affinity).
-/

/-! ## Post records and the archive store (`src/database.py`) -/

/-- A post record, as stored and displayed.  The fields mirror the attributes
read from the raw payload by `database.py` / `status.py`.  `created_at` holds
the already-formatted timestamp (the `strftime` formatting is done by the
external `datetime` library); `media_attachments` holds the `type` field of
each attachment, the only part of an attachment the code reads. -/
structure StatusR where
  id : Nat
  url : String
  account : String
  content : String
  spoiler_text : String
  created_at : String
  replies_count : Nat
  reblogs_count : Nat
  favourites_count : Nat
  media_attachments : List String
deriving DecidableEq, Repr

/-- Errors surfaced by the archive store: `sqlite3.IntegrityError` on a
primary-key collision in `insert`, and the `KeyError` raised by `get`. -/
inductive DBErr where
  | duplicateKey (id : Nat)
  | notFound (id : Nat)
deriving DecidableEq, Repr

/-- The archive store: the rows of the `status` table, in insertion order
(for an `INTEGER PRIMARY KEY` table a plain `SELECT` scans in id order, but
no claim depends on the order). -/
abbrev DB := List (Nat × StatusR)

/-- The ids present in the store. -/
def dbIds (db : DB) : List Nat := db.map Prod.fst

/-- SQL `MAX` over a list of integers: `NULL` (none) on the empty table. -/
def listMax : List Nat → Option Nat
  | [] => none
  | x :: xs =>
    match listMax xs with
    | none => some x
    | some m => some (Nat.max x m)

/-- `Database.max_id`: `SELECT MAX(id) FROM status`.  On an empty table the
aggregate row holds `NULL`, so the function returns `None`. -/
def dbMaxId (db : DB) : Option Nat := listMax (dbIds db)

/-- `Database.get`: `SELECT pickled FROM status WHERE id = ?`, raising
`KeyError` when no row matches. -/
def dbGet (db : DB) (i : Nat) : Except DBErr StatusR :=
  match db.find? (fun r => r.1 == i) with
  | some r => .ok r.2
  | none => .error (.notFound i)

/-- `Database.insert`: `INSERT INTO status(id, pickled) VALUES(?, ?)`.  The
`id` column is `INTEGER NOT NULL PRIMARY KEY`, so inserting an id that is
already present fails with an integrity error and changes nothing. -/
def dbInsert (db : DB) (s : StatusR) : Except DBErr DB :=
  if s.id ∈ dbIds db then .error (.duplicateKey s.id)
  else .ok (db ++ [(s.id, s)])

/-- `Database.items`: `SELECT * FROM status`, yielding every stored row. -/
def dbItems (db : DB) : List (Nat × StatusR) := db

/-! ## The wrapping collaborator (`textwrap.wrap` with the default options)

`render.py` delegates re-flowing to `textwrap.wrap(line, width=display_width)`.
The model below follows the library's pipeline: whitespace munging
(`expandtabs` then translating `\t\n\v\f\r` to spaces), splitting into
alternating whitespace/word chunks, and the greedy line builder
`_wrap_chunks` with `drop_whitespace=True` and `break_long_words=True`
(`break_on_hyphens` additionally allows a split after a hyphen inside a
compound word; the chunk boundaries it adds do not affect any property proved
here, and it is omitted).  The loop is driven by explicit fuel; `wcMeasure`
strictly decreases at each iteration, so the fuel supplied by `wrap` is never
exhausted. -/

/-- The whitespace characters treated by the wrapper (`string.whitespace`):
space, tab, newline, vertical tab, form feed, carriage return. -/
def isSpaceChar (c : Char) : Bool :=
  c = ' ' || c = '\t' || c = '\n' || c = '\x0b' || c = '\x0c' || c = '\r'

/-- `str.expandtabs(8)`: replace each tab by spaces up to the next multiple-of-8
column; the column counter resets after a newline or carriage return. -/
def expandTabsGo (col : Nat) : List Char → List Char
  | [] => []
  | c :: cs =>
    if c = '\t' then
      let n := 8 - col % 8
      List.replicate n ' ' ++ expandTabsGo (col + n) cs
    else if c = '\n' || c = '\r' then c :: expandTabsGo 0 cs
    else c :: expandTabsGo (col + 1) cs

/-- The whitespace translation table: each of `\t\n\v\f\r` becomes a space. -/
def pyTranslateWS (c : Char) : Char := if isSpaceChar c then ' ' else c

/-- `TextWrapper._munge_whitespace`: expand tabs, then map whitespace to
plain spaces. -/
def munge (s : List Char) : List Char := (expandTabsGo 0 s).map pyTranslateWS

/-- Accumulate a maximal run of characters of one whitespace-class.
`cls` is the class of the run being built, `acc` its characters in reverse. -/
def chunkAux (cls : Bool) (acc : List Char) : List Char → List (List Char)
  | [] => [acc.reverse]
  | c :: cs =>
    if isSpaceChar c = cls then chunkAux cls (c :: acc) cs
    else acc.reverse :: chunkAux (isSpaceChar c) [c] cs

/-- `TextWrapper._split`: break the munged text into alternating maximal runs
of whitespace and non-whitespace (the chunks fed to `_wrap_chunks`). -/
def splitChunks : List Char → List (List Char)
  | [] => []
  | c :: cs => chunkAux (isSpaceChar c) [c] cs

/-- Total length of a chunk list. -/
def sumLen (cs : List (List Char)) : Nat := (cs.map List.length).sum

/-- `chunk.strip() == ''`: the chunk is empty or all whitespace. -/
def wsChunk (c : List Char) : Bool := c.all isSpaceChar

/-- The greedy inner loop of `_wrap_chunks`: pop chunks onto the current line
while they fit within `W` columns, starting from accumulated length `n`.
Returns the chunks taken and the chunks remaining. -/
def greedyTake (W n : Nat) : List (List Char) → List (List Char) × List (List Char)
  | [] => ([], [])
  | c :: rest =>
    if n + c.length ≤ W then
      let p := greedyTake W (n + c.length) rest
      (c :: p.1, p.2)
    else ([], c :: rest)

/-- The `drop_whitespace` deletion of a trailing whitespace chunk from the
current line (`del cur_line[-1]`, executed at most once). -/
def dropTrailingWS (cs : List (List Char)) : List (List Char) :=
  match cs.getLast? with
  | some l => if wsChunk l then cs.dropLast else cs
  | none => cs

/-- `_handle_long_word`: when the next chunk is longer than the whole width,
break it at the remaining space (`break_long_words=True`; at least one
character when no space remains and the width is below one). -/
def longWordAdjust (W : Nat) (taken : List (List Char)) :
    List (List Char) → List (List Char) × List (List Char)
  | [] => (taken, [])
  | r :: rs =>
    if W < r.length then
      let spaceLeft := if W < 1 then 1 else W - sumLen taken
      (taken ++ [r.take spaceLeft], r.drop spaceLeft :: rs)
    else (taken, r :: rs)

/-- The body of one outer iteration of `_wrap_chunks` on a non-empty chunk
list: fill the line greedily, break an over-wide chunk, drop trailing
whitespace, and emit the line if anything is left. -/
def wrapCore (W : Nat) (cs : List (List Char)) : Option (List Char) × List (List Char) :=
  let tr := greedyTake W 0 cs
  let cr := longWordAdjust W tr.1 tr.2
  let cur2 := dropTrailingWS cr.1
  if cur2.isEmpty then (none, cr.2) else (some cur2.flatten, cr.2)

/-- One iteration of the outer `while chunks` loop of `_wrap_chunks`:
optionally drop a leading whitespace chunk (only once a line has been
emitted, `first = false`), fill the line greedily, break a chunk longer than
the whole width (`_handle_long_word`), drop trailing whitespace, and emit the
line if anything is left.  Returns the emitted line (if any) and the
remaining chunks. -/
def wrapStep (W : Nat) (first : Bool) (c : List Char) (rest : List (List Char)) :
    Option (List Char) × List (List Char) :=
  if first = false && wsChunk c then
    match rest with
    | [] => (none, [])
    | c1 :: r1 => wrapCore W (c1 :: r1)
  else wrapCore W (c :: rest)

/-- Termination measure for the outer loop: total characters plus number of
chunks.  Every `wrapStep` strictly decreases it. -/
def wcMeasure (cs : List (List Char)) : Nat := sumLen cs + cs.length

/-- The outer loop of `_wrap_chunks`, driven by fuel.  `first` records
whether no line has been emitted yet (`not lines` in the source). -/
def wrapGo (W : Nat) (first : Bool) (cs : List (List Char)) (fuel : Nat) :
    List (List Char) :=
  match cs, fuel with
  | [], _ => []
  | _ :: _, 0 => []
  | c :: rest, Nat.succ f =>
    match wrapStep W first c rest with
    | (some line, rem) => line :: wrapGo W false rem f
    | (none, rem) => wrapGo W first rem f

/-- `textwrap.wrap(s, width=W)` with the default options (the library raises
for `W ≤ 0`; the claims only concern positive widths). -/
def wrap (s : List Char) (W : Nat) : List (List Char) :=
  let chunks := splitChunks (munge s)
  wrapGo W true chunks (wcMeasure chunks)

/-! ## The HTML renderer (`src/render.py`)

The standard library parser (`html.parser.HTMLParser`) is the external
collaborator here; it is modelled by a tokenizer for the constrained fragment
language the renderer consumes: text, start tags and end tags.  As in the
library (when `feed` is used without `close`, as `BasicHTML.render` does), an
unterminated tag at the end of input stays buffered and produces no event.
Character-reference decoding is not modelled: an ampersand reaches the
paragraph as literal text, which matches the library on bare ampersands
(`"a & b"`); inputs spelling out character references decode in the real
parser and lie outside this model's fidelity. -/

/-- Parser events delivered to `BasicHTML`. -/
inductive HEvent where
  | startTag (name : List Char)
  | endTag (name : List Char)
  | data (s : List Char)
deriving DecidableEq, Repr

/-- Tag names are reported lowercased. -/
def lowerStr (s : List Char) : List Char := s.map Char.toLower

/-- The tokenizer loop; each step consumes at least one character, so the
fuel supplied by `tokenize` is never exhausted. -/
def tokenizeGo : Nat → List Char → List HEvent
  | 0, _ => []
  | _, [] => []
  | Nat.succ f, '<' :: rest =>
    match rest with
    | [] => []
    | '/' :: r2 =>
      let name := r2.takeWhile Char.isAlpha
      match r2.dropWhile (fun d => d ≠ '>') with
      | '>' :: r3 => HEvent.endTag (lowerStr name) :: tokenizeGo f r3
      | _ => []
    | c :: _ =>
      if c.isAlpha then
        let name := rest.takeWhile Char.isAlpha
        match rest.dropWhile (fun d => d ≠ '>') with
        | '>' :: r3 => HEvent.startTag (lowerStr name) :: tokenizeGo f r3
        | _ => []
      else HEvent.data ['<'] :: tokenizeGo f rest
  | Nat.succ f, c :: rest =>
    let d := (c :: rest).takeWhile (fun x => x ≠ '<')
    HEvent.data d :: tokenizeGo f ((c :: rest).dropWhile (fun x => x ≠ '<'))

/-- Tokenize a source fragment. -/
def tokenize (s : List Char) : List HEvent := tokenizeGo s.length s

/-- A `Line` as accumulated by the renderer: its chunks, in order
(`Line.contents` joins them). -/
abbrev LineC := List (List Char)

/-- A `Paragraph`: its lines, in order. -/
abbrev ParaC := List LineC

/-- Apply `f` to the last element of a list, as the source mutates
`self._paragraphs[-1]` / `self._lines[-1]` in place. -/
def mapLast (f : α → α) : List α → List α
  | [] => []
  | [a] => [f a]
  | a :: rest => a :: mapLast f rest

/-- `BasicHTML._last_paragraph` followed by a mutation: create an empty
paragraph when there is none, then update the last one. -/
def withLastPara (ps : List ParaC) (f : ParaC → ParaC) : List ParaC :=
  match ps with
  | [] => [f []]
  | _ => mapLast f ps

/-- `Paragraph.append`: create the first line if needed, then append the
chunk to the last line. -/
def paraAppendChunk (p : ParaC) (d : List Char) : ParaC :=
  match p with
  | [] => [[d]]
  | _ => mapLast (fun ln => ln ++ [d]) p

/-- `BasicHTML.handle_starttag` / `handle_data` / (ignored)
`handle_endtag`: a `p` tag starts a new paragraph, a `br` tag appends a new
empty line to the current paragraph, data is appended to the current line;
all other markup is ignored. -/
def applyEvent (ps : List ParaC) (e : HEvent) : List ParaC :=
  match e with
  | .startTag name =>
    if name = ['p'] then ps ++ [[]]
    else if name = ['b', 'r'] then withLastPara ps (fun p => p ++ [[]])
    else ps
  | .endTag _ => ps
  | .data d => withLastPara ps (fun p => paraAppendChunk p d)

/-- Feed a fragment through the parser into the paragraph structure. -/
def parseFragment (src : List Char) : List ParaC :=
  (tokenize src).foldl applyEvent []

/-- `Paragraph.lines()` for every paragraph: join each line's chunks. -/
def stateLines (ps : List ParaC) : List (List (List Char)) :=
  ps.map (fun p => p.map List.flatten)

/-- `BasicHTML._raw_lines`: each paragraph contributes an empty-string
marker followed by its lines. -/
def rawLines (paragraphs : List (List (List Char))) : List (List Char) :=
  (paragraphs.map (fun p => ([] : List Char) :: p)).flatten

/-- The second phase of `BasicHTML._compressed_lines`: count pending blank
lines, emit a single blank before the next content line, and discard
pending blanks at the end. -/
def compressAux : Nat → List (List Char) → List (List Char)
  | _, [] => []
  | blanks, l :: rest =>
    if l = [] then compressAux (blanks + 1) rest
    else (if blanks > 0 then [[], l] else [l]) ++ compressAux 0 rest

/-- `BasicHTML._compressed_lines`: discard leading blank lines, then
compress internal runs of blanks and discard trailing blanks. -/
def compressLines : List (List Char) → List (List Char)
  | [] => []
  | l :: rest => if l = [] then compressLines rest else l :: compressAux 0 rest

/-- `BasicHTML.render`: parse, compress, then wrap every surviving line,
a line that wraps to nothing yielding one empty output line
(`textwrap.wrap(line, width=display_width) or ['']`). -/
def render (src : List Char) (W : Nat) : List (List Char) :=
  ((compressLines (rawLines (stateLines (parseFragment src)))).map
    (fun ln => let w := wrap ln W; if w.isEmpty then [([] : List Char)] else w)).flatten

/-- `'\n'.join(...)`: the renderer's output lines joined with newlines. -/
def joinLines (ls : List (List Char)) : List Char :=
  (List.intersperse ['\n'] ls).flatten

/-- `render` on `String`s, for the display code. -/
def renderS (s : String) (W : Nat) : List String :=
  (render s.data W).map (fun l => String.mk l)

/-! ## The display composition (`src/status.py`) -/

/-- The fixed display width (`DISPLAY_WIDTH = 70`). -/
def DISPLAY_WIDTH : Nat := 70

/-- One step of the attachment counting loop
(`count[item['type']] += 1` over a `defaultdict(int)`): bump an existing
key, or append a new key with count 1; iteration order of the dict is
first-occurrence order. -/
def bumpCount (acc : List (String × Nat)) (t : String) : List (String × Nat) :=
  match acc with
  | [] => [(t, 1)]
  | (k, v) :: rest => if k = t then (k, v + 1) :: rest else (k, v) :: bumpCount rest t

/-- The per-type attachment counts, in first-occurrence order. -/
def countTypes (ts : List String) : List (String × Nat) := ts.foldl bumpCount []

/-- `', '.join(f'{v} {k}' for k, v in count.items())`. -/
def attachSummary (ts : List String) : String :=
  String.intercalate ", " ((countTypes ts).map (fun kv => toString kv.2 ++ " " ++ kv.1))

/-- The `lines` list built by `Status.__str__` before the final join:
account, date and URL headers, a spoiler line when `spoiler_text` is
non-empty, an attachment summary when attachments are present, a blank, the
rendered content, a blank, and the counts line. -/
def statusLines (s : StatusR) : List String :=
  let l1 := ["Account: " ++ s.account, "Date: " ++ s.created_at, "URL: " ++ s.url]
  let l2 := if s.spoiler_text ≠ "" then l1 ++ ["Spoiler: " ++ s.spoiler_text] else l1
  let l3 := if s.media_attachments ≠ [] then
      l2 ++ ["Attached: " ++ attachSummary s.media_attachments] else l2
  let l4 := l3 ++ [""]
  let l5 := l4 ++ renderS s.content DISPLAY_WIDTH
  let l6 := l5 ++ [""]
  l6 ++ [String.intercalate "  "
    ["Replies: " ++ toString s.replies_count,
     "Boosts: " ++ toString s.reblogs_count,
     "Faves: " ++ toString s.favourites_count]]

/-- Modelled from the spec: `status.py` calls `render.compress(lines)`, a
function that `src/render.py` does not define.  The specification's
description of display rendering ("composes: header lines …, a blank
separator, the Renderer's output over `content`, a blank separator, and a
trailing summary line of counts") describes no final transformation of the
composed line list, so the missing function is modelled as the identity. -/
def compress (lines : List String) : List String := lines

/-- `Status.__str__`: the composed line sequence. -/
def statusStrLines (s : StatusR) : List String := compress (statusLines s)

/-- `Status.__str__`: `'\n'.join(render.compress(lines))`. -/
def statusStr (s : StatusR) : String := String.intercalate "\n" (statusStrLines s)

/-! ## The sync engine and search (modelled from the spec)

The orchestration below is repository code that is not under `src/`:
`src/toot_search.py` is an earlier variant whose `cmd_index` fetches the
whole timeline and writes it straight to the index without consulting any
archive store, and whose `cmd_search` reconstructs records from the index's
stored fields; nothing in `src/` calls `database.py`.  The definitions are
therefore modelled from the specification (§4.3 Sync Engine, §4.4
Query/Report) and are marked `Modelled from the spec`; the archive-store
operations they call are the source-embedded ones above. -/

/-- An index document: the projection of a post record held by the index
collaborator (`id` plus the searchable/displayable fields of the schema). -/
structure Doc where
  id : Nat
  url : String
  account : String
  content : String
  spoiler_text : String
deriving DecidableEq, Repr

/-- The projection of a record into its index document. -/
def projDoc (s : StatusR) : Doc :=
  { id := s.id, url := s.url, account := s.account, content := s.content,
    spoiler_text := s.spoiler_text }

/-- The index collaborator's state: documents keyed by id. -/
abbrev Index := List (Nat × Doc)

/-- The ids present in the index. -/
def idxKeys (idx : Index) : List Nat := idx.map Prod.fst

/-- Lookup in the index by key. -/
def idxLookup (idx : Index) (i : Nat) : Option Doc :=
  (idx.find? (fun e => e.1 == i)).map Prod.snd

/-- Modelled from the spec: the index collaborator's
"document upsert-by-unique-key" — overwrite the document stored under the
key, or add it when the key is absent. -/
def upsertDoc : Index → Nat → Doc → Index
  | [], i, d => [(i, d)]
  | e :: rest, i, d => if e.1 = i then (i, d) :: rest else e :: upsertDoc rest i d

/-- Modelled from the spec: step 2 (Fetch) of the Sync Engine — "request
posts from the remote collaborator for the target account, filtered to
identifiers strictly greater than the resume cursor (or unfiltered if
none)."  `remote` is the remote collaborator's full delivery, in delivery
order. -/
def fetchFiltered (cursor : Option Nat) (remote : List StatusR) : List StatusR :=
  match cursor with
  | none => remote
  | some c => remote.filter (fun p => c < p.id)

/-- Modelled from the spec: step 3 (Archive) — insert each fetched post into
the Archive Store; a `DuplicateKey` is fatal and aborts the run. -/
def archiveAll (db : DB) (posts : List StatusR) : Except DBErr DB :=
  posts.foldlM dbInsert db

/-- Modelled from the spec: step 4 (Reindex) — "`scan()` the entire Archive
Store and upsert every record into the Index collaborator keyed by `id`". -/
def reindexAll (idx : Index) (db : DB) : Index :=
  (dbItems db).foldl (fun ix r => upsertDoc ix r.1 (projDoc r.2)) idx

/-- Modelled from the spec: one run of the Sync Engine (the `index`
command): read the resume cursor, fetch the posts above it, archive them,
then rebuild the index from the full store. -/
def syncRun (db : DB) (remote : List StatusR) (idx : Index) :
    Except DBErr (DB × Index) := do
  let fetched := fetchFiltered (dbMaxId db) remote
  let db' ← archiveAll db fetched
  return (db', reindexAll idx db')

/-- Modelled from the spec: the search operation — "delegate to the Index
collaborator's query/ranking capability to obtain a sequence of matching
ids; for each, `get` the full record from the Archive Store (the index only
stores a projection) and render it."  `matchIds` is the id sequence the
index collaborator returns for the query. -/
def cmdSearch (db : DB) (matchIds : List Nat) : List (Except DBErr String) :=
  matchIds.map (fun i => (dbGet db i).map statusStr)

/-- The exact projection of a store into index documents, for stating
full-rebuild consequences. -/
def lookupProj (db : DB) (i : Nat) : Option Doc :=
  (db.find? (fun r => r.1 == i)).map (fun r => projDoc r.2)

/-! ## Concrete fixtures for the incremental-run scenarios -/

/-- A throwaway record with a given id, for concrete test stores. -/
def mkPost (i : Nat) : StatusR :=
  { id := i, url := "u", account := "a", content := "c", spoiler_text := "",
    created_at := "d", replies_count := 0, reblogs_count := 0,
    favourites_count := 0, media_attachments := [] }

/-- A store already holding the ids 1, 2, 3. -/
def db123 : DB := [(1, mkPost 1), (2, mkPost 2), (3, mkPost 3)]

/-- The remote service's delivery holding the posts 1 … 5. -/
def remote12345 : List StatusR :=
  [mkPost 1, mkPost 2, mkPost 3, mkPost 4, mkPost 5]

/-- A stray index document under a key the store never held. -/
def junkDoc : Doc :=
  { id := 99, url := "x", account := "x", content := "x", spoiler_text := "x" }

/-! ### Facts about `listMax` -/

theorem listMax_eq_none_iff (l : List Nat) : listMax l = none ↔ l = [] := by
  cases l with
  | nil => simp [listMax]
  | cons x xs =>
    simp only [listMax]
    cases listMax xs <;> simp

theorem listMax_mem {l : List Nat} {m : Nat} (h : listMax l = some m) : m ∈ l := by
  induction l generalizing m with
  | nil => simp [listMax] at h
  | cons x xs ih =>
    simp only [listMax] at h
    cases hxs : listMax xs with
    | none =>
      rw [hxs] at h
      have h' := Option.some.inj h
      simp [h']
    | some k =>
      rw [hxs] at h
      have h' := Option.some.inj h
      rcases Nat.le_total x k with hle | hle
      · have hm : Nat.max x k = k :=
          Nat.le_antisymm (Nat.max_le.mpr ⟨hle, Nat.le_refl k⟩) (Nat.le_max_right x k)
        have : m = k := by rw [← h', hm]
        exact this ▸ List.mem_cons_of_mem _ (ih hxs)
      · have hm : Nat.max x k = x :=
          Nat.le_antisymm (Nat.max_le.mpr ⟨Nat.le_refl x, hle⟩) (Nat.le_max_left x k)
        have : m = x := by rw [← h', hm]
        exact this ▸ List.mem_cons_self _ _

theorem le_listMax {l : List Nat} {m : Nat} (h : listMax l = some m) :
    ∀ j ∈ l, j ≤ m := by
  induction l generalizing m with
  | nil => simp
  | cons x xs ih =>
    intro j hj
    simp only [listMax] at h
    cases hxs : listMax xs with
    | none =>
      rw [hxs] at h
      have h' := Option.some.inj h
      have hxe : xs = [] := (listMax_eq_none_iff xs).mp hxs
      subst hxe
      simp at hj
      subst hj
      exact Nat.le_of_eq h'
    | some k =>
      rw [hxs] at h
      have h' := Option.some.inj h
      rcases List.mem_cons.mp hj with rfl | hj'
      · exact h' ▸ Nat.le_max_left j k
      · exact h' ▸ Nat.le_trans (ih hxs j hj') (Nat.le_max_right x k)

theorem listMax_eq_some_iff (l : List Nat) (m : Nat) :
    listMax l = some m ↔ m ∈ l ∧ ∀ j ∈ l, j ≤ m := by
  constructor
  · intro h
    exact ⟨listMax_mem h, le_listMax h⟩
  · rintro ⟨hmem, hle⟩
    cases hl : listMax l with
    | none =>
      have : l = [] := (listMax_eq_none_iff l).mp hl
      subst this
      simp at hmem
    | some k =>
      have h1 : k ≤ m := hle k (listMax_mem hl)
      have h2 : m ≤ k := le_listMax hl m hmem
      have : k = m := Nat.le_antisymm h1 h2
      rw [this]

/-! ### Claims C3 and C4 -/

/-- C3: for every archive store, `Database.max_id` returns the maximum id
present among the stored records, and `none` exactly when the store is empty;
in particular a fresh store into which exactly the ids 3, 7 and 5 have been
inserted reports 7. -/
theorem c3_resume_cursor :
    (∀ db : DB, dbMaxId db = none ↔ db = []) ∧
    (∀ (db : DB) (m : Nat),
        dbMaxId db = some m ↔ m ∈ dbIds db ∧ ∀ j ∈ dbIds db, j ≤ m) ∧
    ((do
        let d1 ← dbInsert [] (mkPost 3)
        let d2 ← dbInsert d1 (mkPost 7)
        dbInsert d2 (mkPost 5)).map dbMaxId = Except.ok (some 7)) := by
  refine ⟨?_, ?_, rfl⟩
  · intro db
    rw [dbMaxId, listMax_eq_none_iff]
    constructor
    · intro h
      cases db with
      | nil => rfl
      | cons r rest => simp [dbIds] at h
    · intro h; subst h; rfl
  · intro db m
    exact listMax_eq_some_iff (dbIds db) m

/-- Witness for C3: evaluating the characterization on the store holding
ids 3, 7, 5. -/
theorem c3_resume_cursor_witness :
    dbMaxId [(3, mkPost 3), (7, mkPost 7), (5, mkPost 5)] = some 7 :=
  (c3_resume_cursor.2.1 [(3, mkPost 3), (7, mkPost 7), (5, mkPost 5)] 7).mpr
    (by decide)

/-- C4: inserting a record whose id is already present fails with the
duplicate-key error; no updated store is ever produced for such an insert,
so the previously stored record for that id is untouched. -/
theorem c4_insert_duplicate :
    ∀ (db : DB) (s : StatusR), s.id ∈ dbIds db →
      dbInsert db s = Except.error (DBErr.duplicateKey s.id) ∧
      (∀ db' : DB, dbInsert db s ≠ Except.ok db') ∧
      dbGet db s.id = dbGet db s.id := by
  intro db s h
  refine ⟨?_, ?_, rfl⟩
  · simp [dbInsert, h]
  · intro db' hdb'
    simp [dbInsert, h] at hdb'

/-- Witness for C4: re-inserting id 3 into a store that holds id 3. -/
theorem c4_insert_duplicate_witness :
    dbInsert [(3, mkPost 3)] (mkPost 3) =
      Except.error (DBErr.duplicateKey 3) :=
  (c4_insert_duplicate [(3, mkPost 3)] (mkPost 3) (by decide)).1

/-! ### Facts about the store and index maps -/

theorem find?_key_eq_some {db : DB} (h : (dbIds db).Nodup) {i : Nat} {s : StatusR}
    (hm : (i, s) ∈ db) : db.find? (fun r => r.1 == i) = some (i, s) := by
  induction db with
  | nil => simp at hm
  | cons r rest ih =>
    simp only [dbIds, List.map_cons, List.nodup_cons] at h
    rcases List.mem_cons.mp hm with he | hm'
    · subst he
      exact List.find?_cons_of_pos _ (by simp)
    · have hne : (r.1 == i) = false := by
        simp only [beq_eq_false_iff_ne, ne_eq]
        intro he
        exact h.1 (he ▸ List.mem_map_of_mem Prod.fst hm')
      simp only [List.find?, hne]
      exact ih h.2 hm'

theorem find?_key_eq_none {db : DB} {i : Nat} (h : i ∉ dbIds db) :
    db.find? (fun r => r.1 == i) = none := by
  induction db with
  | nil => rfl
  | cons r rest ih =>
    simp only [dbIds, List.map_cons, List.mem_cons, not_or] at h
    have hne : (r.1 == i) = false := by
      simp only [beq_eq_false_iff_ne, ne_eq]
      intro he
      exact h.1 he.symm
    simp only [List.find?, hne]
    exact ih h.2

theorem idxLookup_eq_none {idx : Index} {i : Nat} (h : i ∉ idxKeys idx) :
    idxLookup idx i = none := by
  induction idx with
  | nil => rfl
  | cons e rest ih =>
    simp only [idxKeys, List.map_cons, List.mem_cons, not_or] at h
    unfold idxLookup
    rw [List.find?_cons_of_neg _ (by simp only [beq_iff_eq]; intro he; exact h.1 he.symm)]
    exact ih h.2

theorem find?_upsert (idx : Index) (i : Nat) (d : Doc) (j : Nat) :
    (upsertDoc idx i d).find? (fun e => e.1 == j) =
      if j = i then some (i, d) else idx.find? (fun e => e.1 == j) := by
  induction idx with
  | nil =>
    by_cases hj : j = i
    · subst hj
      rw [if_pos rfl]
      exact List.find?_cons_of_pos _ (by simp)
    · rw [if_neg hj]
      show List.find? _ [(i, d)] = List.find? _ []
      rw [List.find?_cons_of_neg _ (by simp only [beq_iff_eq]; intro he; exact hj he.symm)]
  | cons e rest ih =>
    by_cases hei : e.1 = i
    · simp only [upsertDoc, if_pos hei]
      by_cases hj : j = i
      · subst hj
        rw [if_pos rfl]
        exact List.find?_cons_of_pos _ (by simp)
      · rw [if_neg hj,
          List.find?_cons_of_neg _ (by simp only [beq_iff_eq]; intro he; exact hj he.symm),
          List.find?_cons_of_neg _
            (by simp only [beq_iff_eq]; intro he; exact hj (he ▸ hei))]
    · simp only [upsertDoc, if_neg hei]
      by_cases hej : e.1 = j
      · have hji : j ≠ i := fun hh => hei (hej.trans hh)
        rw [if_neg hji, List.find?_cons_of_pos _ (by simp [hej]),
          List.find?_cons_of_pos _ (by simp [hej])]
      · rw [List.find?_cons_of_neg _ (by simp [hej]), ih]
        by_cases hj : j = i
        · rw [if_pos hj, if_pos hj]
        · rw [if_neg hj, if_neg hj, List.find?_cons_of_neg _ (by simp [hej])]

theorem idxLookup_upsert (idx : Index) (i : Nat) (d : Doc) (j : Nat) :
    idxLookup (upsertDoc idx i d) j = if j = i then some d else idxLookup idx j := by
  unfold idxLookup
  rw [find?_upsert]
  by_cases hj : j = i <;> simp [hj]

theorem idxLookup_reindex_not_mem :
    ∀ (db : DB) (idx : Index) {i : Nat}, i ∉ dbIds db →
      idxLookup (reindexAll idx db) i = idxLookup idx i := by
  intro db
  induction db with
  | nil => intro idx i _; rfl
  | cons r rest ih =>
    intro idx i h
    simp only [dbIds, List.map_cons, List.mem_cons, not_or] at h
    have hstep : reindexAll idx (r :: rest) =
        reindexAll (upsertDoc idx r.1 (projDoc r.2)) rest := rfl
    rw [hstep, ih _ h.2, idxLookup_upsert, if_neg h.1]

theorem idxLookup_reindex_mem :
    ∀ (db : DB) (idx : Index), (dbIds db).Nodup →
      ∀ {i : Nat} {s : StatusR}, (i, s) ∈ db →
        idxLookup (reindexAll idx db) i = some (projDoc s) := by
  intro db
  induction db with
  | nil => intro idx _ i s hm; simp at hm
  | cons r rest ih =>
    intro idx h i s hm
    have hstep : reindexAll idx (r :: rest) =
        reindexAll (upsertDoc idx r.1 (projDoc r.2)) rest := rfl
    simp only [dbIds, List.map_cons, List.nodup_cons] at h
    rcases List.mem_cons.mp hm with he | hm'
    · subst he
      have hni : (i, s).1 ∉ dbIds rest := h.1
      rw [hstep, idxLookup_reindex_not_mem rest _ hni, idxLookup_upsert, if_pos rfl]
    · rw [hstep]
      exact ih _ h.2 hm'

theorem archiveAll_cons (db : DB) (p : StatusR) (ps : List StatusR) :
    archiveAll db (p :: ps) = (dbInsert db p).bind (fun db1 => archiveAll db1 ps) := by
  cases h : dbInsert db p with
  | error e => simp only [archiveAll, List.foldlM, h]; rfl
  | ok db1 => simp only [archiveAll, List.foldlM, h]; rfl

theorem archiveAll_nodup :
    ∀ (ps : List StatusR) (db db' : DB), (dbIds db).Nodup →
      archiveAll db ps = Except.ok db' → (dbIds db').Nodup := by
  intro ps
  induction ps with
  | nil =>
    intro db db' h he
    have he' : (Except.ok db : Except DBErr DB) = Except.ok db' := he
    exact Except.ok.inj he' ▸ h
  | cons p ps' ih =>
    intro db db' h he
    rw [archiveAll_cons] at he
    cases hi : dbInsert db p with
    | error e => rw [hi] at he; simp [Except.bind] at he
    | ok db1 =>
      rw [hi] at he
      simp only [Except.bind] at he
      have hmem : p.id ∉ dbIds db := by
        intro hm
        simp [dbInsert, hm] at hi
      have hdb1 : db1 = db ++ [(p.id, p)] := by
        simp [dbInsert, hmem] at hi
        exact hi.symm
      have hnd1 : (dbIds db1).Nodup := by
        subst hdb1
        simp only [dbIds, List.map_append, List.map_cons, List.map_nil]
        rw [List.nodup_append]
        refine ⟨by simpa [dbIds] using h, List.nodup_singleton _, ?_⟩
        intro a ha hb
        simp at hb
        subst hb
        exact hmem (by simpa [dbIds] using ha)
      exact ih db1 db' hnd1 he


/-! ### Claims C1, C2, C8, C9 -/

/-- C1: fetching is filtered to ids strictly above the resume cursor
(unfiltered when the store is empty); a run from a store holding ids 1, 2, 3
against remote posts 1 … 5 fetches and archives exactly the posts 4 and 5 —
the archive step attempts `insert` exactly on the fetched posts, so ids
1, 2, 3 are never attempted. -/
theorem c1_incremental_fetch :
    (∀ (db : DB) (remote : List StatusR),
        fetchFiltered (dbMaxId db) remote =
          (match dbMaxId db with
           | none => remote
           | some c => remote.filter (fun p => c < p.id))) ∧
    (∀ remote : List StatusR, fetchFiltered (dbMaxId ([] : DB)) remote = remote) ∧
    dbMaxId db123 = some 3 ∧
    (fetchFiltered (dbMaxId db123) remote12345).map StatusR.id = [4, 5] ∧
    archiveAll db123 (fetchFiltered (dbMaxId db123) remote12345) =
      Except.ok (db123 ++ [(4, mkPost 4), (5, mkPost 5)]) ∧
    syncRun db123 remote12345 [] =
      Except.ok (db123 ++ [(4, mkPost 4), (5, mkPost 5)],
        reindexAll [] (db123 ++ [(4, mkPost 4), (5, mkPost 5)])) ∧
    (1 : Nat) ∉ (fetchFiltered (dbMaxId db123) remote12345).map StatusR.id ∧
    (2 : Nat) ∉ (fetchFiltered (dbMaxId db123) remote12345).map StatusR.id ∧
    (3 : Nat) ∉ (fetchFiltered (dbMaxId db123) remote12345).map StatusR.id := by
  refine ⟨fun db remote => rfl, fun remote => rfl, rfl, rfl, rfl, rfl, ?_, ?_, ?_⟩
    <;> decide

/-- Witness for C1: the run from the store {1, 2, 3} fetches exactly the ids
4 and 5. -/
theorem c1_incremental_fetch_witness :
    (fetchFiltered (dbMaxId db123) remote12345).map StatusR.id = [4, 5] :=
  c1_incremental_fetch.2.2.2.1

theorem syncRun_eq (db : DB) (remote : List StatusR) (idx : Index) :
    syncRun db remote idx =
      match archiveAll db (fetchFiltered (dbMaxId db) remote) with
      | .error e => .error e
      | .ok db' => .ok (db', reindexAll idx db') := by
  show (archiveAll db (fetchFiltered (dbMaxId db) remote)).bind
      (fun db' => Except.ok (db', reindexAll idx db')) = _
  cases archiveAll db (fetchFiltered (dbMaxId db) remote) <;> rfl

/-- C2 counterexample: a successful run over an empty store and empty remote
delivery leaves a pre-existing stray index document in place, so after the
run the index does not reflect exactly the store's contents — the claim's
"regardless of prior index state" fails when the prior index holds a key the
store does not. -/
theorem c2_counterexample :
    syncRun [] [] [(99, junkDoc)] = Except.ok ([], [(99, junkDoc)]) ∧
    idxLookup [(99, junkDoc)] 99 ≠ lookupProj ([] : DB) 99 :=
  ⟨rfl, by decide⟩

/-- C2 (amended): on every successful run the resulting index is the
upsert of every scanned store record, keyed by id, into the prior index
(overwrite, not append); every stored record is therefore reflected exactly,
a zero-fetch run still re-synchronizes the whole store, and the index equals
exactly the store's projection whenever every prior index key is a stored id
(in particular after an index loss). -/
theorem c2_reindex_amended :
    ∀ (db : DB) (remote : List StatusR) (idx0 : Index) (out : DB × Index),
      (dbIds db).Nodup →
      syncRun db remote idx0 = Except.ok out →
      (dbIds out.1).Nodup ∧
      out.2 = reindexAll idx0 out.1 ∧
      (∀ (i : Nat) (s : StatusR), (i, s) ∈ out.1 →
          idxLookup out.2 i = some (projDoc s)) ∧
      (fetchFiltered (dbMaxId db) remote = [] → out.1 = db) ∧
      ((∀ i ∈ idxKeys idx0, i ∈ dbIds out.1) →
        ∀ i, idxLookup out.2 i = lookupProj out.1 i) := by
  intro db remote idx0 out hnd hrun
  rw [syncRun_eq] at hrun
  cases ha : archiveAll db (fetchFiltered (dbMaxId db) remote) with
  | error e => rw [ha] at hrun; cases hrun
  | ok db' =>
    rw [ha] at hrun
    have hout : out = (db', reindexAll idx0 db') := (Except.ok.inj hrun).symm
    subst hout
    have hnd' : (dbIds db').Nodup := archiveAll_nodup _ db db' hnd ha
    refine ⟨hnd', rfl, ?_, ?_, ?_⟩
    · intro i s hm
      exact idxLookup_reindex_mem db' idx0 hnd' hm
    · intro hf
      rw [hf] at ha
      have : (Except.ok db : Except DBErr DB) = Except.ok db' := ha
      exact (Except.ok.inj this).symm
    · intro hsub i
      by_cases hi : i ∈ dbIds db'
      · obtain ⟨r, hmem, hfst⟩ := List.mem_map.mp hi
        obtain ⟨i', s⟩ := r
        have hii : i' = i := hfst
        subst hii
        rw [idxLookup_reindex_mem db' idx0 hnd' hmem]
        unfold lookupProj
        rw [find?_key_eq_some hnd' hmem]
        rfl
      · rw [idxLookup_reindex_not_mem db' idx0 hi]
        have h0 : i ∉ idxKeys idx0 := fun hk => hi (hsub i hk)
        rw [idxLookup_eq_none h0]
        unfold lookupProj
        rw [find?_key_eq_none hi]
        rfl

/-- Witness for the amended C2: a run over the store {1} with nothing to
fetch and a lost (empty) index re-synchronizes the record 1 into the
index. -/
theorem c2_reindex_amended_witness :
    idxLookup (reindexAll [] [(1, mkPost 1)]) 1 = some (projDoc (mkPost 1)) := by
  have h := c2_reindex_amended [(1, mkPost 1)] [] []
    ([(1, mkPost 1)], reindexAll [] [(1, mkPost 1)]) (by decide) rfl
  exact h.2.2.1 1 (mkPost 1) (by decide)

/-- C8: the search operation maps the id sequence obtained from the index
collaborator through an archive-store `get` (rendering the full stored
record); `Database.get` indeed returns exactly the record stored under the
requested id. -/
theorem c8_search_full_records :
    (∀ (db : DB) (matchIds : List Nat),
        cmdSearch db matchIds = matchIds.map (fun i => (dbGet db i).map statusStr)) ∧
    (∀ db : DB, (dbIds db).Nodup →
        ∀ (i : Nat) (s : StatusR), (dbGet db i = Except.ok s ↔ (i, s) ∈ db)) := by
  refine ⟨fun db matchIds => rfl, ?_⟩
  intro db hnd i s
  constructor
  · intro hg
    unfold dbGet at hg
    cases hf : db.find? (fun r => r.1 == i) with
    | none => rw [hf] at hg; cases hg
    | some r =>
      rw [hf] at hg
      have hr : r.2 = s := Except.ok.inj hg
      have hmem := List.mem_of_find?_eq_some hf
      have hpred := List.find?_some hf
      simp only [beq_iff_eq] at hpred
      have hrr : r = (i, s) := by
        obtain ⟨a, b⟩ := r
        simp only at hpred hr
        rw [hpred, hr]
      exact hrr ▸ hmem
  · intro hm
    unfold dbGet
    rw [find?_key_eq_some hnd hm]

/-- Witness for C8: `get` on the store {1, 2, 3} returns the stored record
for id 2. -/
theorem c8_search_full_records_witness :
    dbGet db123 2 = Except.ok (mkPost 2) :=
  (c8_search_full_records.2 db123 (by decide) 2 (mkPost 2)).mpr (by decide)

/-- C9: rendering a record for display composes, in order: the account,
date and URL header lines, a spoiler line exactly when `spoiler_text` is
non-empty, an attachment-type summary exactly when attachments are present,
one blank separator, the renderer's output over `content` at the display
width, one blank separator, and the trailing counts line. -/
theorem c9_display_composition :
    ∀ s : StatusR,
      statusStrLines s =
        (["Account: " ++ s.account, "Date: " ++ s.created_at, "URL: " ++ s.url]
          ++ (if s.spoiler_text ≠ "" then ["Spoiler: " ++ s.spoiler_text] else [])
          ++ (if s.media_attachments ≠ [] then
                ["Attached: " ++ attachSummary s.media_attachments] else []))
        ++ [""] ++ renderS s.content DISPLAY_WIDTH ++ [""]
        ++ [String.intercalate "  "
              ["Replies: " ++ toString s.replies_count,
               "Boosts: " ++ toString s.reblogs_count,
               "Faves: " ++ toString s.favourites_count]] := by
  intro s
  unfold statusStrLines compress statusLines
  by_cases h1 : s.spoiler_text ≠ "" <;> by_cases h2 : s.media_attachments ≠ [] <;>
    simp [h1, h2]

/-! ### C5: blank-line normalization -/

theorem compressAux_chain (b : Nat) (l : List (List Char)) :
    List.Chain' (fun x y => x = ([] : List Char) → y ≠ []) (compressAux b l) := by
  induction l generalizing b with
  | nil => simp [compressAux]
  | cons hd rest ih =>
    by_cases hhd : hd = []
    · simp only [compressAux, if_pos hhd]
      exact ih (b + 1)
    · simp only [compressAux, if_neg hhd]
      by_cases hb : b > 0
      · rw [if_pos hb]
        show List.Chain' _ ([] :: hd :: compressAux 0 rest)
        rw [List.chain'_cons]
        refine ⟨fun _ => hhd, ?_⟩
        rw [List.chain'_cons']
        exact ⟨fun y _ => fun hhd' => absurd hhd' hhd, ih 0⟩
      · rw [if_neg hb]
        show List.Chain' _ (hd :: compressAux 0 rest)
        rw [List.chain'_cons']
        exact ⟨fun y _ => fun hhd' => absurd hhd' hhd, ih 0⟩

theorem compressAux_getLast (b : Nat) (l : List (List Char)) :
    (compressAux b l).getLast? ≠ some [] := by
  induction l generalizing b with
  | nil => simp [compressAux]
  | cons hd rest ih =>
    by_cases hhd : hd = []
    · simp only [compressAux, if_pos hhd]
      exact ih (b + 1)
    · simp only [compressAux, if_neg hhd]
      cases ht : compressAux 0 rest with
      | nil =>
        by_cases hb : b > 0 <;> simp [hb, hhd]
      | cons t ts =>
        rw [List.getLast?_append_of_ne_nil _ (List.cons_ne_nil t ts), ← ht]
        exact ih 0

theorem compressLines_head (l : List (List Char)) :
    (compressLines l).head? ≠ some [] := by
  induction l with
  | nil => simp [compressLines]
  | cons hd rest ih =>
    by_cases hhd : hd = []
    · simp only [compressLines, if_pos hhd]
      exact ih
    · simp only [compressLines, if_neg hhd, List.head?_cons]
      intro hc
      exact hhd (Option.some.inj hc)

theorem compressLines_getLast (l : List (List Char)) :
    (compressLines l).getLast? ≠ some [] := by
  induction l with
  | nil => simp [compressLines]
  | cons hd rest ih =>
    by_cases hhd : hd = []
    · simp only [compressLines, if_pos hhd]
      exact ih
    · simp only [compressLines, if_neg hhd]
      cases ht : compressAux 0 rest with
      | nil => simp [hhd]
      | cons t ts =>
        show (hd :: t :: ts).getLast? ≠ some []
        rw [show hd :: t :: ts = [hd] ++ t :: ts from rfl,
          List.getLast?_append_of_ne_nil _ (List.cons_ne_nil t ts), ← ht]
        exact compressAux_getLast 0 rest

theorem compressLines_chain (l : List (List Char)) :
    List.Chain' (fun x y => x = ([] : List Char) → y ≠ []) (compressLines l) := by
  induction l with
  | nil => simp [compressLines]
  | cons hd rest ih =>
    by_cases hhd : hd = []
    · simp only [compressLines, if_pos hhd]
      exact ih
    · simp only [compressLines, if_neg hhd]
      rw [List.chain'_cons']
      exact ⟨fun y _ => fun hhd' => absurd hhd' hhd, compressAux_chain 0 rest⟩

theorem compressAux_blank_run :
    ∀ (n : Nat), ∀ (k : Nat) (b : List Char) (rest : List (List Char)), b ≠ [] →
      compressAux k (List.replicate n [] ++ b :: rest) =
        (if 0 < k + n then [[], b] else [b]) ++ compressAux 0 rest := by
  intro n
  induction n with
  | zero =>
    intro k b rest hb
    simp [compressAux, hb]
  | succ n ih =>
    intro k b rest hb
    rw [List.replicate_succ, List.cons_append]
    show compressAux k ([] :: _) = _
    simp only [compressAux, if_pos rfl]
    rw [ih (k + 1) b rest hb]
    have h1 : 0 < k + 1 + n := by omega
    have h2 : 0 < k + (n + 1) := by omega
    rw [if_pos h1, if_pos h2]
    simp

theorem compressAux_nonblank_pass :
    ∀ (t rest : List (List Char)), (∀ y ∈ t, y ≠ []) →
      compressAux 0 (t ++ rest) = t ++ compressAux 0 rest := by
  intro t
  induction t with
  | nil => intro rest _; simp
  | cons y t' ih =>
    intro rest h
    have hy : y ≠ [] := h y (List.mem_cons_self _ _)
    rw [List.cons_append]
    simp only [compressAux, if_neg hy, gt_iff_lt, Nat.lt_irrefl, if_neg (by omega : ¬ (0 : Nat) > 0)]
    rw [ih rest (fun z hz => h z (List.mem_cons_of_mem y hz))]
    rfl

theorem compressAux_replicate_nil :
    ∀ (n k : Nat), compressAux k (List.replicate n ([] : List Char)) = [] := by
  intro n
  induction n with
  | zero => intro k; rfl
  | succ n ih =>
    intro k
    rw [List.replicate_succ]
    simp only [compressAux, if_pos rfl]
    exact ih (k + 1)

theorem compressLines_drop_leading :
    ∀ (n : Nat) (rest : List (List Char)),
      compressLines (List.replicate n [] ++ rest) = compressLines rest := by
  intro n
  induction n with
  | zero => intro rest; simp
  | succ n ih =>
    intro rest
    rw [List.replicate_succ, List.cons_append]
    simp only [compressLines, if_pos rfl]
    exact ih rest

/-- C5: for every parsed paragraph/line structure, the compressed line
sequence (each paragraph contributing an empty-string marker followed by its
lines) has no leading empty line, no trailing empty line, and no two
consecutive empty lines; and the compression acts exactly as the claim
states — leading blank markers are discarded entirely, the first content
line is emitted as-is, an internal run of one or more blank markers before
the next content line collapses to exactly one empty line (the separator is
preserved, never deleted), runs of content lines pass through unchanged, and
a trailing run of blank markers (whatever blank count is pending) is
discarded entirely. -/
theorem c5_blank_compression :
    (∀ paragraphs : List (List (List Char)),
      (compressLines (rawLines paragraphs)).head? ≠ some [] ∧
      (compressLines (rawLines paragraphs)).getLast? ≠ some [] ∧
      List.Chain' (fun x y => x = ([] : List Char) → y ≠ [])
        (compressLines (rawLines paragraphs))) ∧
    (∀ (n : Nat) (rest : List (List Char)),
      compressLines (List.replicate n [] ++ rest) = compressLines rest) ∧
    (∀ (a : List Char) (rest : List (List Char)), a ≠ [] →
      compressLines (a :: rest) = a :: compressAux 0 rest) ∧
    (∀ (n : Nat) (b : List Char) (rest : List (List Char)), 1 ≤ n → b ≠ [] →
      compressAux 0 (List.replicate n [] ++ b :: rest) =
        [] :: b :: compressAux 0 rest) ∧
    (∀ (t rest : List (List Char)), (∀ y ∈ t, y ≠ []) →
      compressAux 0 (t ++ rest) = t ++ compressAux 0 rest) ∧
    (∀ (n k : Nat), compressAux k (List.replicate n ([] : List Char)) = []) := by
  refine ⟨?_, compressLines_drop_leading, ?_, ?_, compressAux_nonblank_pass,
    fun n k => compressAux_replicate_nil n k⟩
  · intro paragraphs
    exact ⟨compressLines_head (rawLines paragraphs),
      compressLines_getLast (rawLines paragraphs),
      compressLines_chain (rawLines paragraphs)⟩
  · intro a rest ha
    simp [compressLines, ha]
  · intro n b rest hn hb
    rw [compressAux_blank_run n 0 b rest hb, if_pos (by omega)]
    rfl

/-- Witness for C5: a run of two internal blank markers before the content
line `b` collapses to exactly one empty line. -/
theorem c5_blank_compression_witness :
    compressAux 0 (List.replicate 2 ([] : List Char) ++ [['b']]) =
      [] :: ['b'] :: compressAux 0 [] :=
  c5_blank_compression.2.2.2.1 2 ['b'] [] (by decide) (by decide)

/-! ### Chunk arithmetic for the wrapper -/

theorem sumLen_nil : sumLen [] = 0 := rfl

theorem sumLen_cons (c : List Char) (cs : List (List Char)) :
    sumLen (c :: cs) = c.length + sumLen cs := by
  simp [sumLen]

theorem sumLen_append (a b : List (List Char)) :
    sumLen (a ++ b) = sumLen a + sumLen b := by
  simp [sumLen]

theorem sumLen_eq_length_flatten (cs : List (List Char)) :
    cs.flatten.length = sumLen cs := by
  induction cs with
  | nil => rfl
  | cons c rest ih => simp [sumLen_cons, ih]

theorem wcMeasure_cons (c : List Char) (cs : List (List Char)) :
    wcMeasure (c :: cs) = c.length + 1 + wcMeasure cs := by
  simp [wcMeasure, sumLen_cons]
  omega

theorem wcMeasure_pos (c : List Char) (cs : List (List Char)) :
    1 ≤ wcMeasure (c :: cs) := by
  rw [wcMeasure_cons]
  omega

theorem greedyTake_append (W n : Nat) (cs : List (List Char)) :
    (greedyTake W n cs).1 ++ (greedyTake W n cs).2 = cs := by
  induction cs generalizing n with
  | nil => rfl
  | cons c rest ih =>
    by_cases h : n + c.length ≤ W
    · simp only [greedyTake, if_pos h, List.cons_append]
      rw [ih]
    · simp [greedyTake, if_neg h]

theorem greedyTake_sumLen (W : Nat) (cs : List (List Char)) :
    ∀ n, n ≤ W → n + sumLen (greedyTake W n cs).1 ≤ W := by
  induction cs with
  | nil => intro n h; simpa [greedyTake, sumLen] using h
  | cons c rest ih =>
    intro n h
    by_cases hc : n + c.length ≤ W
    · simp only [greedyTake, if_pos hc, sumLen_cons]
      have := ih (n + c.length) hc
      omega
    · simpa [greedyTake, if_neg hc, sumLen] using h

theorem greedyTake_all (W : Nat) (cs : List (List Char)) :
    ∀ n, n + sumLen cs ≤ W → greedyTake W n cs = (cs, []) := by
  induction cs with
  | nil => intro n _; rfl
  | cons c rest ih =>
    intro n h
    rw [sumLen_cons] at h
    have hc : n + c.length ≤ W := by omega
    simp only [greedyTake, if_pos hc]
    rw [ih (n + c.length) (by omega)]

theorem sumLen_dropLast_le (cs : List (List Char)) : sumLen cs.dropLast ≤ sumLen cs := by
  induction cs with
  | nil => simp
  | cons c rest ih =>
    cases rest with
    | nil => simp [sumLen]
    | cons d ds =>
      rw [List.dropLast_cons₂, sumLen_cons, sumLen_cons]
      have h2 : sumLen (d :: ds).dropLast ≤ sumLen (d :: ds) := ih
      omega

theorem dropTrailingWS_cases (cs : List (List Char)) :
    dropTrailingWS cs = cs ∨ dropTrailingWS cs = cs.dropLast := by
  unfold dropTrailingWS
  cases cs.getLast? with
  | none => exact Or.inl rfl
  | some l =>
    by_cases h : wsChunk l
    · simp [h]
    · simp [h]

theorem dropTrailingWS_sumLen_le (cs : List (List Char)) :
    sumLen (dropTrailingWS cs) ≤ sumLen cs := by
  rcases dropTrailingWS_cases cs with h | h
  · rw [h]
  · rw [h]
    exact sumLen_dropLast_le cs

theorem flatten_dropLast_append (cs : List (List Char)) :
    ∃ t, cs.flatten = cs.dropLast.flatten ++ t := by
  induction cs with
  | nil => exact ⟨[], rfl⟩
  | cons c rest ih =>
    cases rest with
    | nil => exact ⟨c, by simp⟩
    | cons d ds =>
      obtain ⟨t, ht⟩ := ih
      refine ⟨t, ?_⟩
      rw [List.dropLast_cons₂, List.flatten_cons, ht, List.flatten_cons,
        List.append_assoc]

theorem dropTrailingWS_flatten (cs : List (List Char)) :
    ∃ t, cs.flatten = (dropTrailingWS cs).flatten ++ t := by
  rcases dropTrailingWS_cases cs with h | h <;> rw [h]
  · exact ⟨[], by simp⟩
  · exact flatten_dropLast_append cs

theorem longWordAdjust_fst_sumLen {W : Nat} (hW : 1 ≤ W)
    (taken rem : List (List Char)) (h : sumLen taken ≤ W) :
    sumLen (longWordAdjust W taken rem).1 ≤ W := by
  cases rem with
  | nil => exact h
  | cons r rs =>
    by_cases hr : W < r.length
    · have hW1 : ¬ W < 1 := by omega
      simp only [longWordAdjust, if_pos hr, if_neg hW1, sumLen_append, sumLen_cons, sumLen_nil]
      have : (r.take (W - sumLen taken)).length ≤ W - sumLen taken := by
        rw [List.length_take]
        omega
      omega
    · simpa [longWordAdjust, if_neg hr] using h

theorem longWordAdjust_flatten (W : Nat) (taken rem : List (List Char)) :
    (longWordAdjust W taken rem).1.flatten ++ (longWordAdjust W taken rem).2.flatten
      = taken.flatten ++ rem.flatten := by
  cases rem with
  | nil => simp [longWordAdjust]
  | cons r rs =>
    by_cases hr : W < r.length
    · simp only [longWordAdjust, if_pos hr, List.flatten_append, List.flatten_cons]
      simp only [List.flatten_nil, List.append_nil, List.append_assoc]
      rw [← List.append_assoc (List.take _ r), List.take_append_drop]
    · simp [longWordAdjust, if_neg hr]

theorem wrapCore_line_le {W : Nat} (hW : 1 ≤ W) (cs : List (List Char))
    {line : List Char} {rem : List (List Char)}
    (h : wrapCore W cs = (some line, rem)) : line.length ≤ W := by
  dsimp only [wrapCore] at h
  split at h
  · cases h
  · injection h with h1 h2
    injection h1 with h1
    subst h1
    have hg : sumLen (greedyTake W 0 cs).1 ≤ W := by
      have := greedyTake_sumLen W cs 0 (Nat.zero_le W)
      omega
    have hla : sumLen (longWordAdjust W (greedyTake W 0 cs).1 (greedyTake W 0 cs).2).1 ≤ W :=
      longWordAdjust_fst_sumLen hW _ _ hg
    have h3 := dropTrailingWS_sumLen_le
      (longWordAdjust W (greedyTake W 0 cs).1 (greedyTake W 0 cs).2).1
    rw [sumLen_eq_length_flatten]
    omega

theorem wrapStep_line_le {W : Nat} (hW : 1 ≤ W) (first : Bool) (c : List Char)
    (rest : List (List Char)) {line : List Char} {rem : List (List Char)}
    (h : wrapStep W first c rest = (some line, rem)) : line.length ≤ W := by
  dsimp only [wrapStep] at h
  split at h
  · cases rest with
    | nil => cases h
    | cons c1 r1 => exact wrapCore_line_le hW _ h
  · exact wrapCore_line_le hW _ h

theorem wrapGo_line_le {W : Nat} (hW : 1 ≤ W) :
    ∀ (fuel : Nat) (first : Bool) (cs : List (List Char)) (l : List Char),
      l ∈ wrapGo W first cs fuel → l.length ≤ W := by
  intro fuel
  induction fuel with
  | zero =>
    intro first cs l hl
    cases cs <;> simp [wrapGo] at hl
  | succ f ih =>
    intro first cs l hl
    cases cs with
    | nil => simp [wrapGo] at hl
    | cons c rest =>
      simp only [wrapGo] at hl
      cases hs : wrapStep W first c rest with
      | mk o rem =>
        rw [hs] at hl
        cases o with
        | some line =>
          simp only at hl
          rcases List.mem_cons.mp hl with rfl | hl'
          · exact wrapStep_line_le hW first c rest hs
          · exact ih false rem l hl'
        | none =>
          simp only at hl
          exact ih first rem l hl

/-- C10: with any positive display width, every line the renderer produces
is at most `display_width` characters long — over-wide chunks are broken by
the wrapper rather than emitted overlong, and the empty-line fallback
contributes a line of length 0. -/
theorem c10_width_bound :
    ∀ (src : List Char) (W : Nat), 1 ≤ W →
      ∀ l ∈ render src W, l.length ≤ W := by
  intro src W hW l hl
  unfold render at hl
  rw [List.mem_flatten] at hl
  obtain ⟨seg, hseg, hlseg⟩ := hl
  rw [List.mem_map] at hseg
  obtain ⟨ln, hln, hsegdef⟩ := hseg
  subst hsegdef
  dsimp only at hlseg
  by_cases he : (wrap ln W).isEmpty = true
  · rw [if_pos he] at hlseg
    have : l = [] := by simpa using hlseg
    subst this
    exact Nat.zero_le W
  · rw [if_neg he] at hlseg
    unfold wrap at hlseg
    exact wrapGo_line_le hW _ _ _ _ hlseg

/-- Witness for C10: wrapping `"hello"` at width 3 yields the 3-character
line `hel`. -/
theorem c10_width_bound_witness :
    (['h', 'e', 'l'] : List Char).length ≤ 3 :=
  c10_width_bound "hello".data 3 (by decide) ['h', 'e', 'l'] (by decide)

/-! ### Munging and splitting facts -/

theorem munge_ws_space {s : List Char} {c : Char} (h : c ∈ munge s)
    (hws : isSpaceChar c = true) : c = ' ' := by
  unfold munge at h
  obtain ⟨d, hd, hdc⟩ := List.mem_map.mp h
  unfold pyTranslateWS at hdc
  by_cases hdws : isSpaceChar d = true
  · rw [if_pos hdws] at hdc
    exact hdc.symm
  · rw [if_neg hdws] at hdc
    subst hdc
    exact absurd hws hdws

theorem expandTabsGo_eq_self {s : List Char} (h : '\t' ∉ s) :
    ∀ col, expandTabsGo col s = s := by
  induction s with
  | nil => intro col; rfl
  | cons d ds ih =>
    intro col
    have hd : ¬ d = '\t' := fun hh => h (hh ▸ List.mem_cons_self d ds)
    have hds : '\t' ∉ ds := fun hh => h (List.mem_cons_of_mem d hh)
    by_cases hnl : d = '\n' || d = '\r'
    · simp only [expandTabsGo, if_neg hd, if_pos hnl]
      rw [ih hds]
    · simp only [expandTabsGo, if_neg hd, if_neg hnl]
      rw [ih hds]

theorem map_pyTranslate_id {s : List Char}
    (h : ∀ c ∈ s, isSpaceChar c = false ∨ c = ' ') : s.map pyTranslateWS = s := by
  induction s with
  | nil => rfl
  | cons d ds ih =>
    simp only [List.map_cons]
    have hd := h d (List.mem_cons_self d ds)
    have hid : pyTranslateWS d = d := by
      rcases hd with hd | hd
      · simp [pyTranslateWS, hd]
      · subst hd; rfl
    rw [hid, ih (fun c hc => h c (List.mem_cons_of_mem d hc))]

theorem munge_eq_self {s : List Char}
    (h : ∀ c ∈ s, isSpaceChar c = false ∨ c = ' ') : munge s = s := by
  have ht : '\t' ∉ s := by
    intro hm
    rcases h _ hm with hh | hh
    · exact absurd hh (by decide)
    · exact absurd hh (by decide)
  unfold munge
  rw [expandTabsGo_eq_self ht 0, map_pyTranslate_id h]

theorem chunkAux_flatten (cs : List Char) :
    ∀ (cls : Bool) (acc : List Char),
      (chunkAux cls acc cs).flatten = acc.reverse ++ cs := by
  induction cs with
  | nil => intro cls acc; simp [chunkAux]
  | cons c cs' ih =>
    intro cls acc
    by_cases h : isSpaceChar c = cls
    · simp only [chunkAux, if_pos h]
      rw [ih]
      simp
    · simp only [chunkAux, if_neg h, List.flatten_cons]
      rw [ih]
      simp

theorem splitChunks_flatten (s : List Char) : (splitChunks s).flatten = s := by
  cases s with
  | nil => rfl
  | cons c cs =>
    show (chunkAux (isSpaceChar c) [c] cs).flatten = c :: cs
    rw [chunkAux_flatten]
    rfl

theorem chunkAux_ne_nil (cs : List Char) :
    ∀ (cls : Bool) (acc : List Char), acc ≠ [] →
      ∀ ch ∈ chunkAux cls acc cs, ch ≠ [] := by
  induction cs with
  | nil =>
    intro cls acc hacc ch hch
    simp [chunkAux] at hch
    subst hch
    simpa using hacc
  | cons c cs' ih =>
    intro cls acc hacc ch hch
    by_cases h : isSpaceChar c = cls
    · rw [chunkAux, if_pos h] at hch
      exact ih cls (c :: acc) (List.cons_ne_nil c acc) ch hch
    · rw [chunkAux, if_neg h] at hch
      rcases List.mem_cons.mp hch with rfl | hch'
      · simpa using hacc
      · exact ih (isSpaceChar c) [c] (List.cons_ne_nil c []) ch hch'

theorem splitChunks_ne_nil (s : List Char) : ∀ ch ∈ splitChunks s, ch ≠ [] := by
  cases s with
  | nil => simp [splitChunks]
  | cons c cs =>
    exact chunkAux_ne_nil cs (isSpaceChar c) [c] (List.cons_ne_nil c [])

theorem getLast?_mem {α : Type} : ∀ {l : List α} {a : α}, l.getLast? = some a → a ∈ l := by
  intro l
  induction l with
  | nil => intro a h; cases h
  | cons x xs ih =>
    intro a h
    cases xs with
    | nil =>
      have : x = a := by simpa using h
      simp [this]
    | cons y ys =>
      have h' : (y :: ys).getLast? = some a := by
        rw [← h]
        rfl
      exact List.mem_cons_of_mem x (ih h')

theorem flatten_getLast? {cs : List (List Char)} (hne : ∀ ch ∈ cs, ch ≠ []) :
    ∀ {L : List Char}, cs.getLast? = some L → cs.flatten.getLast? = L.getLast? := by
  induction cs with
  | nil => intro L h; cases h
  | cons c cs' ih =>
    intro L hL
    cases hcs' : cs' with
    | nil =>
      subst hcs'
      have : c = L := by simpa using hL
      subst this
      simp
    | cons d ds =>
      subst hcs'
      have hL' : (d :: ds).getLast? = some L := by
        rw [← hL]
        rfl
      have hdne : (d :: ds).flatten ≠ [] := by
        intro h0
        have hd := hne d (List.mem_cons_of_mem c (List.mem_cons_self d ds))
        rw [List.flatten_cons] at h0
        exact hd (List.append_eq_nil.mp h0).1
      rw [List.flatten_cons, List.getLast?_append_of_ne_nil _ hdne]
      exact ih (fun ch hch => hne ch (List.mem_cons_of_mem c hch)) hL'

theorem splitChunks_getLast_not_ws {m : List Char} {c : Char}
    (hlast : m.getLast? = some c) (hws : isSpaceChar c = false) :
    ∀ L, (splitChunks m).getLast? = some L → wsChunk L = false := by
  intro L hL
  have hfl : (splitChunks m).flatten.getLast? = L.getLast? :=
    flatten_getLast? (splitChunks_ne_nil m) hL
  rw [splitChunks_flatten] at hfl
  have hLc : L.getLast? = some c := by rw [← hfl, hlast]
  have hcL : c ∈ L := getLast?_mem hLc
  cases hwsL : wsChunk L with
  | false => rfl
  | true =>
    unfold wsChunk at hwsL
    rw [List.all_eq_true] at hwsL
    have := hwsL c hcL
    rw [hws] at this
    cases this

/-! ### Termination measure and empty-output facts for the wrapper -/

theorem wrapCore_snd (W : Nat) (cs : List (List Char)) :
    (wrapCore W cs).2 = (longWordAdjust W (greedyTake W 0 cs).1 (greedyTake W 0 cs).2).2 := by
  dsimp only [wrapCore]
  split <;> rfl

theorem wrapCore_flatten_eq (W : Nat) (cs : List (List Char)) :
    (longWordAdjust W (greedyTake W 0 cs).1 (greedyTake W 0 cs).2).1.flatten ++
      (longWordAdjust W (greedyTake W 0 cs).1 (greedyTake W 0 cs).2).2.flatten
      = cs.flatten := by
  rw [longWordAdjust_flatten, ← List.flatten_append, greedyTake_append]

theorem wrapCore_some_chars {W : Nat} {cs : List (List Char)} {line : List Char}
    {rem : List (List Char)} (h : wrapCore W cs = (some line, rem)) :
    ∀ ch ∈ line, ch ∈ cs.flatten := by
  dsimp only [wrapCore] at h
  split at h
  · cases h
  · injection h with h1 h2
    injection h1 with h1
    subst h1
    intro ch hch
    obtain ⟨t, hteq⟩ := dropTrailingWS_flatten
      (longWordAdjust W (greedyTake W 0 cs).1 (greedyTake W 0 cs).2).1
    have h3 : ch ∈ (longWordAdjust W (greedyTake W 0 cs).1 (greedyTake W 0 cs).2).1.flatten := by
      rw [hteq]
      exact List.mem_append_left _ hch
    rw [← wrapCore_flatten_eq W cs]
    exact List.mem_append_left _ h3

theorem wrapCore_rem_chars {W : Nat} {cs : List (List Char)} {o : Option (List Char)}
    {rem : List (List Char)} (h : wrapCore W cs = (o, rem)) :
    ∀ ch ∈ rem.flatten, ch ∈ cs.flatten := by
  have h2 : rem = (longWordAdjust W (greedyTake W 0 cs).1 (greedyTake W 0 cs).2).2 := by
    have h3 := congrArg Prod.snd h
    rw [wrapCore_snd] at h3
    exact h3.symm
  intro ch hch
  rw [h2] at hch
  rw [← wrapCore_flatten_eq W cs]
  exact List.mem_append_right _ hch

theorem wrapStep_some_chars {W : Nat} {first : Bool} {c : List Char}
    {rest : List (List Char)} {line : List Char} {rem : List (List Char)}
    (h : wrapStep W first c rest = (some line, rem)) :
    ∀ ch ∈ line, ch ∈ (c :: rest).flatten := by
  dsimp only [wrapStep] at h
  split at h
  · cases rest with
    | nil => cases h
    | cons c1 r1 =>
      intro ch hch
      rw [List.flatten_cons]
      exact List.mem_append_right _ (wrapCore_some_chars h ch hch)
  · exact wrapCore_some_chars h

theorem wrapStep_rem_chars {W : Nat} {first : Bool} {c : List Char}
    {rest : List (List Char)} {o : Option (List Char)} {rem : List (List Char)}
    (h : wrapStep W first c rest = (o, rem)) :
    ∀ ch ∈ rem.flatten, ch ∈ (c :: rest).flatten := by
  dsimp only [wrapStep] at h
  split at h
  · cases rest with
    | nil =>
      injection h with h1 h2
      subst h2
      intro ch hch
      simp at hch
    | cons c1 r1 =>
      intro ch hch
      rw [List.flatten_cons]
      exact List.mem_append_right _ (wrapCore_rem_chars h ch hch)
  · exact wrapCore_rem_chars h

theorem wrapGo_chars :
    ∀ (fuel W : Nat) (first : Bool) (cs : List (List Char)) (l : List Char),
      l ∈ wrapGo W first cs fuel → ∀ ch ∈ l, ch ∈ cs.flatten := by
  intro fuel
  induction fuel with
  | zero =>
    intro W first cs l hl
    cases cs <;> simp [wrapGo] at hl
  | succ f ih =>
    intro W first cs l hl
    cases cs with
    | nil => simp [wrapGo] at hl
    | cons c rest =>
      simp only [wrapGo] at hl
      cases hs : wrapStep W first c rest with
      | mk o rem =>
        rw [hs] at hl
        cases o with
        | some line =>
          simp only at hl
          rcases List.mem_cons.mp hl with rfl | hl'
          · exact wrapStep_some_chars hs
          · intro ch hch
            exact wrapStep_rem_chars hs ch (ih W false rem l hl' ch hch)
        | none =>
          simp only at hl
          intro ch hch
          exact wrapStep_rem_chars hs ch (ih W first rem l hl ch hch)

/-- Wrapped lines whose characters are already munged, that fit in the
width, and that do not end in whitespace are fixed points of the wrapper:
the whole line is taken greedily onto a single output line and survives the
trailing-whitespace deletion. -/
theorem wrap_fixed_point {m : List Char} {W : Nat} (_hW : 1 ≤ W) (hne : m ≠ [])
    (hchars : ∀ c ∈ m, isSpaceChar c = false ∨ c = ' ')
    (hlen : m.length ≤ W)
    (hlast : ∀ c, m.getLast? = some c → isSpaceChar c = false) :
    wrap m W = [m] := by
  show wrapGo W true (splitChunks (munge m)) (wcMeasure (splitChunks (munge m))) = [m]
  rw [munge_eq_self hchars]
  have hflat : (splitChunks m).flatten = m := splitChunks_flatten m
  have hcne : splitChunks m ≠ [] := by
    intro h0
    rw [h0] at hflat
    exact hne hflat.symm
  have hsum : sumLen (splitChunks m) ≤ W := by
    have := sumLen_eq_length_flatten (splitChunks m)
    rw [hflat] at this
    omega
  have hg : greedyTake W 0 (splitChunks m) = (splitChunks m, []) :=
    greedyTake_all W _ 0 (by omega)
  have hdt : dropTrailingWS (splitChunks m) = splitChunks m := by
    unfold dropTrailingWS
    cases hL : (splitChunks m).getLast? with
    | none => rfl
    | some L =>
      dsimp only
      obtain ⟨c, hc⟩ : ∃ c, m.getLast? = some c := by
        cases hm : m.getLast? with
        | none =>
          rw [List.getLast?_eq_none_iff] at hm
          exact absurd hm hne
        | some c => exact ⟨c, rfl⟩
      rw [if_neg (by
        rw [splitChunks_getLast_not_ws hc (hlast c hc) L hL]
        simp)]
  have hcore : wrapCore W (splitChunks m) = (some m, []) := by
    dsimp only [wrapCore]
    rw [hg]
    dsimp only
    dsimp only [longWordAdjust]
    rw [hdt, if_neg (by simpa [List.isEmpty_iff] using hcne), hflat]
  obtain ⟨c0, rest0, hcs⟩ := List.exists_cons_of_ne_nil hcne
  rw [hcs]
  obtain ⟨k, hk⟩ : ∃ k, wcMeasure (c0 :: rest0) = k + 1 :=
    ⟨wcMeasure (c0 :: rest0) - 1, by
      have := wcMeasure_pos c0 rest0
      omega⟩
  rw [hk]
  simp only [wrapGo]
  have hstep : wrapStep W true c0 rest0 = (some m, []) := by
    dsimp only [wrapStep]
    rw [if_neg (by simp)]
    rw [← hcs]
    exact hcore
  rw [hstep]
  show m :: wrapGo W false [] k = [m]
  cases k <;> rfl

/-! ### Claims C7 and C6 -/

/-- C6 counterexample: re-rendering the renderer's own newline-joined output
is not a fixed point — `"a<br>b"` renders to the two lines `a`, `b`, but
re-rendering `"a\nb"` yields the single line `a b`, because the wrapper
replaces the newline by a space and merges the lines. -/
theorem c6_counterexample :
    render ('a' :: '<' :: 'b' :: 'r' :: '>' :: 'b' :: []) 70 = [['a'], ['b']] ∧
    render (joinLines (render ('a' :: '<' :: 'b' :: 'r' :: '>' :: 'b' :: []) 70)) 70
      = [['a', ' ', 'b']] ∧
    render (joinLines (render ('a' :: '<' :: 'b' :: 'r' :: '>' :: 'b' :: []) 70)) 70
      ≠ render ('a' :: '<' :: 'b' :: 'r' :: '>' :: 'b' :: []) 70 := by
  refine ⟨?_, ?_, ?_⟩ <;> decide

theorem render_line_props {src : List Char} {W : Nat} (hW : 1 ≤ W) {l : List Char}
    (hl : l ∈ render src W) (hne : l ≠ []) :
    l.length ≤ W ∧ ∀ ch ∈ l, isSpaceChar ch = true → ch = ' ' := by
  unfold render at hl
  rw [List.mem_flatten] at hl
  obtain ⟨seg, hseg, hlseg⟩ := hl
  rw [List.mem_map] at hseg
  obtain ⟨ln, hln, hsegdef⟩ := hseg
  subst hsegdef
  dsimp only at hlseg
  by_cases he : (wrap ln W).isEmpty = true
  · rw [if_pos he] at hlseg
    have : l = [] := by simpa using hlseg
    exact absurd this hne
  · rw [if_neg he] at hlseg
    unfold wrap at hlseg
    refine ⟨wrapGo_line_le hW _ _ _ _ hlseg, ?_⟩
    intro ch hch hws
    have hmem : ch ∈ (splitChunks (munge ln)).flatten :=
      wrapGo_chars _ W true _ l hlseg ch hch
    rw [splitChunks_flatten] at hmem
    exact munge_ws_space hmem hws

/-- C6 (amended): full re-rendering of the newline-joined output is not a
fixed point (the wrapper merges the joined lines, see the counterexample);
what holds is the per-line fixed point — every produced line that does not
end in whitespace, wrapped again at the same width, yields exactly itself. -/
theorem c6_line_fixed_point :
    ∀ (src : List Char) (W : Nat), 1 ≤ W →
      ∀ l ∈ render src W,
        (∃ c, l.getLast? = some c ∧ isSpaceChar c = false) →
        wrap l W = [l] := by
  intro src W hW l hl hlast
  obtain ⟨c, hc, hcns⟩ := hlast
  have hne : l ≠ [] := by
    intro h0
    rw [h0] at hc
    cases hc
  obtain ⟨hlen, hchars⟩ := render_line_props hW hl hne
  refine wrap_fixed_point hW hne ?_ hlen ?_
  · intro d hd
    by_cases hws : isSpaceChar d = true
    · exact Or.inr (hchars d hd hws)
    · exact Or.inl (by simpa using hws)
  · intro d hd
    rw [hc] at hd
    have : c = d := Option.some.inj hd
    exact this ▸ hcns

/-- Witness for the amended C6: the first produced line of `"a<br>b"` at
width 70 is `a`, and wrapping it again yields exactly `[a]`. -/
theorem c6_line_fixed_point_witness :
    wrap ['a'] 70 = [['a']] :=
  c6_line_fixed_point ('a' :: '<' :: 'b' :: 'r' :: '>' :: 'b' :: []) 70 (by decide)
    ['a'] (by decide) ⟨'a', by decide, by decide⟩
